import Mathlib

/-!
Verification of the enex2notion upload driver.

The development shallowly embeds the CLI upload driver of
`enex2notion/cli.py` (resume ledger `DoneFile`, the per-note retry loop
`_upload_note`, the per-file loop `EnexUploader.upload`, `get_root`, and the
input scanning in `cli`).  Components of the repository that exist only
through their tests (the configurable `--retry` driver, the `--skip-failed`
policy, `_sizeof_fmt`) are modelled from the specification text; each such
definition carries a doc comment starting with `Modelled from the spec:`.
-/

namespace Enex2Notion

/-! ### Human-readable size formatting (`_sizeof_fmt`) -/

/-- Modelled from the spec: the one-fractional-digit rendering used by
`_sizeof_fmt` for units above bytes.  The running value is the exact
rational `num / den` (with `den` the power of 1024 accumulated so far);
it is rendered rounded to the nearest tenth.  Ties cannot occur because
the value has a power-of-two denominator, so rounding half up agrees with
the rounding of the float formatting in the source. -/
def fmtOneDecimal (num den : Nat) : String :=
  let tenths := (num * 20 + den) / (2 * den)
  toString (tenths / 10) ++ "." ++ toString (tenths % 10)

/-- Modelled from the spec: the unit loop of `_sizeof_fmt` (the module
`enex_uploader_block` is not under `src/`, only its test is).  The value is
divided by 1024 per unit and printed at the first unit where it drops below
1024, with `TB` as the final unit after `KB`, `MB`, `GB`. -/
def sizeofFmtGo (num : Nat) : Nat → List String → String
  | den, [] => fmtOneDecimal num den ++ "TB"
  | den, u :: us =>
    if num < 1024 * den then fmtOneDecimal num den ++ u
    else sizeofFmtGo num (1024 * den) us

/-- Modelled from the spec: `_sizeof_fmt(num)`; binary (1024-based) units
`B, KB, MB, GB, TB`, bytes below 1024 shown as a bare integer, every larger
unit shown with exactly one fractional digit. -/
def sizeofFmt (num : Nat) : String :=
  if num < 1024 then toString num ++ "B"
  else sizeofFmtGo num 1024 ["KB", "MB", "GB"]

example : sizeofFmt 0 = "0B" := by decide
example : sizeofFmt 100 = "100B" := by decide
example : sizeofFmt 2000 = "2.0KB" := by decide
example : sizeofFmt (2 ^ 50) = "1024.0TB" := by decide
example : sizeofFmt (2 ^ 40) = "1.0TB" := by decide

/-! ### Resume ledger (`DoneFile`) -/

/-- Contents of a file, modelled as the list of its characters. -/
abbrev FileData := List Char

/-- Python `str.strip()`: remove leading and trailing whitespace. -/
def pyStrip (s : FileData) : FileData :=
  ((s.dropWhile Char.isWhitespace).reverse.dropWhile Char.isWhitespace).reverse

/-- Line iteration of `for line in f` over the file contents, with each
yielded line given without its trailing newline (every consumer below
strips the line anyway, and stripping removes the newline): characters are
accumulated until a newline is hit; a final segment without a trailing
newline is yielded as well, while an empty final segment is not (Python
yields no empty line at the very end of a file). -/
def fileLinesGo (acc : List Char) : FileData → List FileData
  | [] => if acc.isEmpty then [] else [acc.reverse]
  | c :: cs =>
    if c = '\n' then acc.reverse :: fileLinesGo [] cs
    else fileLinesGo (c :: acc) cs

/-- Lines of a file, as consumed by `DoneFile.__init__`. -/
def fileLines (s : FileData) : List FileData :=
  fileLinesGo [] s

/-- From `DoneFile.__init__` (`cli.py` lines 25-32): read the done set from
the ledger file, stripping each line; `none` models the
`FileNotFoundError` branch, which yields an empty set instead of
raising. -/
def doneFileInit (file : Option FileData) : Finset FileData :=
  match file with
  | none => ∅
  | some contents => ((fileLines contents).map pyStrip).toFinset

/-- From `DoneFile.__contains__` (`cli.py` lines 34-35). -/
def doneFileContains (done : Finset FileData) (h : FileData) : Bool :=
  decide (h ∈ done)

/-- From `DoneFile.add` (`cli.py` lines 37-41): the file-write half of
`add`, appending one hash plus a newline to the ledger file (the in-memory
set update is modelled in the run driver below). -/
def doneFileWrite (contents : FileData) (h : FileData) : FileData :=
  contents ++ h ++ ['\n']

/-- Appending a list of hashes one by one to the ledger file, starting from
an empty file. -/
def writeLedger (hs : List FileData) : FileData :=
  hs.foldl doneFileWrite []

example : fileLines ("a\nb\n".data) = ["a".data, "b".data] := by decide
example : doneFileInit (some (writeLedger ["ab".data, "cd".data]))
    = {"ab".data, "cd".data} := by decide

/-- Concatenation of lines, each terminated by a newline; the closed form of
`writeLedger`. -/
def linesJoin : List FileData → FileData
  | [] => []
  | h :: hs => h ++ '\n' :: linesJoin hs

theorem foldl_doneFileWrite (hs : List FileData) :
    ∀ acc : FileData, hs.foldl doneFileWrite acc = acc ++ linesJoin hs := by
  induction hs with
  | nil => intro acc; simp [linesJoin]
  | cons h hs ih =>
    intro acc
    simp only [List.foldl_cons, linesJoin, ih, doneFileWrite, List.append_assoc,
      List.singleton_append]

theorem writeLedger_eq (hs : List FileData) : writeLedger hs = linesJoin hs := by
  simpa using foldl_doneFileWrite hs []

theorem fileLinesGo_line (h : FileData) (hn : '\n' ∉ h) :
    ∀ (acc rest : List Char),
      fileLinesGo acc (h ++ '\n' :: rest) = (acc.reverse ++ h) :: fileLines rest := by
  induction h with
  | nil => intro acc rest; simp [fileLinesGo, fileLines]
  | cons c h ih =>
    intro acc rest
    have hc : c ≠ '\n' := fun hceq => hn (hceq ▸ List.mem_cons_self c h)
    have hn' : '\n' ∉ h := fun hmem => hn (List.mem_cons_of_mem c hmem)
    simp only [List.cons_append, fileLinesGo, if_neg hc, List.append_eq]
    rw [ih hn']
    simp

theorem fileLines_linesJoin (hs : List FileData) (hn : ∀ h ∈ hs, '\n' ∉ h) :
    fileLines (linesJoin hs) = hs := by
  induction hs with
  | nil => simp [linesJoin, fileLines, fileLinesGo]
  | cons h hs ih =>
    have hh : '\n' ∉ h := hn h (List.mem_cons_self h hs)
    have hrest : ∀ g ∈ hs, '\n' ∉ g := fun g hg => hn g (List.mem_cons_of_mem h hg)
    show fileLinesGo [] (linesJoin (h :: hs)) = h :: hs
    rw [linesJoin, fileLinesGo_line h hh, List.reverse_nil, List.nil_append,
      ih hrest]

theorem map_pyStrip_eq (hs : List FileData) (hstr : ∀ h ∈ hs, pyStrip h = h) :
    hs.map pyStrip = hs := by
  induction hs with
  | nil => simp
  | cons h hs ih =>
    simp only [List.map_cons, hstr h (List.mem_cons_self h hs),
      ih fun g hg => hstr g (List.mem_cons_of_mem h hg)]

/-- C5, Resume ledger round-trip: appending a list of clean fingerprint
strings (no embedded newline, no surrounding whitespace) one by one to an
empty ledger file and then constructing a fresh ledger from that file
yields the set of exactly those entries; with the entries distinct the set
has exactly their number of elements, and any permutation of the append
order produces the same set. -/
theorem ledger_round_trip (hs : List FileData)
    (hclean : ∀ h ∈ hs, '\n' ∉ h ∧ pyStrip h = h) (hnd : hs.Nodup) :
    doneFileInit (some (writeLedger hs)) = hs.toFinset ∧
    (doneFileInit (some (writeLedger hs))).card = hs.length ∧
    ∀ hs' : List FileData, hs.Perm hs' →
      doneFileInit (some (writeLedger hs')) = hs.toFinset := by
  have main : ∀ gs : List FileData, (∀ h ∈ gs, '\n' ∉ h ∧ pyStrip h = h) →
      doneFileInit (some (writeLedger gs)) = gs.toFinset := by
    intro gs hgs
    simp only [doneFileInit, writeLedger_eq,
      fileLines_linesJoin gs fun g hg => (hgs g hg).1,
      map_pyStrip_eq gs fun g hg => (hgs g hg).2]
  have h1 := main hs hclean
  refine ⟨h1, ?_, ?_⟩
  · rw [h1, List.toFinset_card_of_nodup hnd]
  · intro hs' hperm
    have hclean' : ∀ h ∈ hs', '\n' ∉ h ∧ pyStrip h = h := fun g hg =>
      hclean g (hperm.mem_iff.mpr hg)
    rw [main hs' hclean', List.toFinset_eq_of_perm hs' hs hperm.symm]

/-- C5 witness: the round trip evaluated on two concrete fingerprints. -/
theorem ledger_round_trip_witness :
    doneFileInit (some (writeLedger ["ab".data, "cd".data]))
      = ["ab".data, "cd".data].toFinset :=
  (ledger_round_trip ["ab".data, "cd".data] (by decide) (by decide)).1

/-- C8, Missing ledger file: constructing the resume ledger from a path
that does not exist (the `FileNotFoundError` branch of
`DoneFile.__init__`) yields an empty done-set, and membership tests
against it return false for every fingerprint. -/
theorem missing_ledger_empty :
    doneFileInit none = ∅ ∧
    ∀ h : FileData, doneFileContains (doneFileInit none) h = false := by
  constructor
  · rfl
  · intro h
    simp [doneFileInit, doneFileContains]

/-- C4 counterexample: the claim maps `2 ^ 40` to `"1024.0TB"`, but
`2 ^ 40` bytes is exactly one tebibyte, and the formatting function
renders it as `"1.0TB"`. -/
theorem sizeof_fmt_pow40 :
    sizeofFmt (2 ^ 40) = "1.0TB" ∧ sizeofFmt (2 ^ 40) ≠ "1024.0TB" := by
  decide

/-- C4 amended: the size formatting maps 0 to `"0B"`, 100 to `"100B"`,
2000 to `"2.0KB"`, and `2 ^ 50` (= 1024^5, the value used by the
repository test) to `"1024.0TB"`, using binary units with bytes as a bare
integer and one fractional digit above bytes. -/
theorem sizeof_fmt_examples :
    sizeofFmt 0 = "0B" ∧ sizeofFmt 100 = "100B" ∧
    sizeofFmt 2000 = "2.0KB" ∧ sizeofFmt (2 ^ 50) = "1024.0TB" := by
  decide

/-! ### Observable events of the upload driver -/

/-- Observable actions of one run: remote calls, logging, and ledger
writes.  `uploadCall hash ok` is one invocation of `upload_note` for the
note with fingerprint `hash`, with `ok` recording whether the remote call
succeeded (`false` = it raised `NoteUploadFailException`). -/
inductive Event where
  | uploadCall (hash : String) (ok : Bool)
  | warnRetry (title : String)
  | ledgerAppend (hash : String)
  | parseCall (hash : String)
  | skipDupe (hash : String)
  | getNotebookDB (title : String)
  | getNotebookPage (title : String)
  | warnDryRun
  | getClient
  | getImportRoot (name : String)
  | errorSkipFailed (title : String)
  deriving DecidableEq

/-- Number of `upload_note` invocations for fingerprint `h` in a trace. -/
def countUploads (tr : List Event) (h : String) : Nat :=
  (tr.filter fun e =>
    match e with
    | Event.uploadCall h' _ => decide (h' = h)
    | _ => false).length

/-- Number of failed `upload_note` invocations in a trace. -/
def countFailed (tr : List Event) : Nat :=
  (tr.filter fun e =>
    match e with
    | Event.uploadCall _ ok => !ok
    | _ => false).length

/-- Number of retry warnings logged in a trace. -/
def countWarns (tr : List Event) : Nat :=
  (tr.filter fun e =>
    match e with
    | Event.warnRetry _ => true
    | _ => false).length

/-- Number of ledger appends for fingerprint `h` in a trace. -/
def countAppends (tr : List Event) (h : String) : Nat :=
  (tr.filter fun e => decide (e = Event.ledgerAppend h)).length

/-- Number of duplicate-skip log lines for fingerprint `h` in a trace. -/
def countSkips (tr : List Event) (h : String) : Nat :=
  (tr.filter fun e => decide (e = Event.skipDupe h)).length

/-- Whether the trace contains a successful `upload_note` call for `h`. -/
def successFor (tr : List Event) (h : String) : Bool :=
  tr.any fun e => decide (e = Event.uploadCall h true)

/-! ### The per-note retry loop -/

/-- From `_upload_note` (`cli.py` lines 44-55): the body of
`for attempt in range(5)`, started at `attempt` with `fuel` iterations
remaining (the loop is entered with `attempt = 0`, `fuel = 5`).  The
oracle `outcome` gives each attempt's result (`true` = the remote
`upload_note` call returns, `false` = it raises
`NoteUploadFailException`).  On a failure at `attempt = 4` the exception
is re-raised (second component `false`); on any earlier failure a retry
warning is logged and the loop continues; on success the loop breaks. -/
def uploadAttemptsFrom (title hash : String) (outcome : Nat → Bool) :
    Nat → Nat → List Event × Bool
  | _, 0 => ([], true)
  | attempt, fuel + 1 =>
    if outcome attempt then ([Event.uploadCall hash true], true)
    else if attempt = 4 then ([Event.uploadCall hash false], false)
    else
      let rest := uploadAttemptsFrom title hash outcome (attempt + 1) fuel
      (Event.uploadCall hash false :: Event.warnRetry title :: rest.1, rest.2)

/-- From `_upload_note` (`cli.py` lines 44-55): the full loop. -/
def uploadNoteSrc (title hash : String) (outcome : Nat → Bool) :
    List Event × Bool :=
  uploadAttemptsFrom title hash outcome 0 5

/-- Modelled from the spec: the per-note retry driver with a configurable
retry count ("attempts `upload` up to `rules.retry` times (0 means retry
indefinitely)"); the configurable driver is exercised by the tests through
the `--retry` option but its module is not under `src/` (the `cli.py`
there hard-codes 5 attempts).  Attempts are numbered from 1; the result is
`some (attempts made, success)`.  `fuel` only bounds the length of the
simulated run: `none` means the driver is still retrying after `fuel`
attempts, which models the unbounded `retry = 0` loop. -/
def retryUpload (outcome : Nat → Bool) (retry : Nat) : Nat → Nat → Option (Nat × Bool)
  | _, 0 => none
  | attempt, fuel + 1 =>
    if outcome attempt then some (attempt, true)
    else if retry ≠ 0 ∧ attempt = retry then some (attempt, false)
    else retryUpload outcome retry (attempt + 1) fuel

example : retryUpload (fun _ => false) 5 1 9 = some (5, false) := by decide
example : retryUpload (fun i => decide (i = 4)) 0 1 9 = some (4, true) := by decide
example : retryUpload (fun i => decide (i = 2)) 7 1 9 = some (2, true) := by decide
example : countWarns (uploadNoteSrc "n" "h" (fun _ => false)).1 = 4 := by decide
example : countFailed (uploadNoteSrc "n" "h" (fun _ => false)).1 = 5 := by decide

theorem retryUpload_all_fail (outcome : Nat → Bool) (retry : Nat) (hr : 1 ≤ retry)
    (hf : ∀ i, outcome i = false) :
    ∀ fuel attempt, 1 ≤ attempt → attempt ≤ retry → retry < attempt + fuel →
      retryUpload outcome retry attempt fuel = some (retry, false) := by
  intro fuel
  induction fuel with
  | zero => intro attempt _ h2 h3; omega
  | succ fuel ih =>
    intro attempt h1 h2 h3
    by_cases heq : attempt = retry
    · subst heq
      have hne : attempt ≠ 0 := by omega
      simp [retryUpload, hf attempt, hne]
    · simp only [retryUpload, hf attempt, Bool.false_eq_true, if_false]
      rw [if_neg fun hc => heq hc.2]
      exact ih (attempt + 1) (by omega) (by omega) (by omega)

theorem retryUpload_success (outcome : Nat → Bool) (retry K : Nat)
    (hK : outcome K = true) (hprev : ∀ i, 1 ≤ i → i < K → outcome i = false)
    (hpol : retry = 0 ∨ K ≤ retry) :
    ∀ fuel attempt, 1 ≤ attempt → attempt ≤ K → K < attempt + fuel →
      retryUpload outcome retry attempt fuel = some (K, true) := by
  intro fuel
  induction fuel with
  | zero => intro attempt _ h2 h3; omega
  | succ fuel ih =>
    intro attempt h1 h2 h3
    by_cases heq : attempt = K
    · subst heq
      simp [retryUpload, hK]
    · have hlt : attempt < K := by omega
      simp only [retryUpload, hprev attempt h1 hlt, Bool.false_eq_true, if_false]
      rw [if_neg]
      · exact ih (attempt + 1) (by omega) (by omega) (by omega)
      · rintro ⟨hne, hat⟩
        rcases hpol with h0 | hle
        · exact hne h0
        · omega

/-- C1, Retry bound of the per-note upload driver (`retry` is the
configured retry count, attempts numbered from 1, `fuel` any large-enough
simulation horizon): with `retry = 5` and every attempt failing, exactly 5
attempts occur before a terminal failure; with `retry = 0`, failures on
attempts 1..n followed by a success on attempt n+1 give exactly n+1
attempts, for every n; a success on attempt `K ≤ retry` gives exactly `K`
attempts; and the fixed-5 `_upload_note` of `cli.py` makes exactly 5
`upload_note` calls then re-raises when every attempt fails. -/
theorem retry_bound (outcome : Nat → Bool) (fuel K n retry : Nat) :
    ((∀ i, outcome i = false) → 5 ≤ fuel →
      retryUpload outcome 5 1 fuel = some (5, false)) ∧
    (outcome (n + 1) = true → (∀ i, 1 ≤ i → i ≤ n → outcome i = false) →
      n + 1 ≤ fuel → retryUpload outcome 0 1 fuel = some (n + 1, true)) ∧
    (1 ≤ K → K ≤ retry → outcome K = true →
      (∀ i, 1 ≤ i → i < K → outcome i = false) → K ≤ fuel →
      retryUpload outcome retry 1 fuel = some (K, true)) ∧
    (∀ title hash, (∀ i, outcome i = false) →
      countUploads (uploadNoteSrc title hash outcome).1 hash = 5 ∧
      (uploadNoteSrc title hash outcome).2 = false) := by
  refine ⟨?_, ?_, ?_, ?_⟩
  · intro hf hfuel
    exact retryUpload_all_fail outcome 5 (by omega) hf fuel 1 (by omega) (by omega)
      (by omega)
  · intro hs hprev hfuel
    exact retryUpload_success outcome 0 (n + 1) hs
      (fun i h1 h2 => hprev i h1 (by omega)) (Or.inl rfl) fuel 1 (by omega)
      (by omega) (by omega)
  · intro hK hKr hs hprev hfuel
    exact retryUpload_success outcome retry K hs hprev (Or.inr hKr) fuel 1
      (by omega) hK (by omega)
  · intro title hash hf
    simp [uploadNoteSrc, uploadAttemptsFrom, hf, countUploads]

/-- C1 witness: concrete runs of the retry driver. -/
theorem retry_bound_witness :
    retryUpload (fun _ => false) 5 1 9 = some (5, false) ∧
    retryUpload (fun i => decide (i = 4)) 0 1 9 = some (4, true) ∧
    retryUpload (fun i => decide (i = 2)) 7 1 9 = some (2, true) ∧
    countUploads (uploadNoteSrc "note" "h" (fun _ => false)).1 "h" = 5 ∧
    (uploadNoteSrc "note" "h" (fun _ => false)).2 = false := by
  refine ⟨(retry_bound (fun _ => false) 9 0 0 0).1 (fun _ => rfl) (by omega),
    (retry_bound (fun i => decide (i = 4)) 9 0 3 0).2.1 rfl
      (fun i h1 h2 => by interval_cases i <;> rfl) (by omega),
    (retry_bound (fun i => decide (i = 2)) 9 2 0 7).2.2.1 (by omega) (by omega)
      rfl (fun i h1 h2 => by interval_cases i; rfl) (by omega),
    ((retry_bound (fun _ => false) 0 0 0 0).2.2.2 "note" "h" (fun _ => rfl)).1,
    ((retry_bound (fun _ => false) 0 0 0 0).2.2.2 "note" "h" (fun _ => rfl)).2⟩

/-- C7 counterexample: with every attempt failing, `_upload_note` makes 5
failed attempts but logs only 4 retry warnings, because the terminal
failed attempt re-raises without logging a warning; so the number of
warnings does not equal the number of failed attempts. -/
theorem warn_per_attempt_counterexample :
    countFailed (uploadNoteSrc "note" "h" (fun _ => false)).1 = 5 ∧
    countWarns (uploadNoteSrc "note" "h" (fun _ => false)).1 = 4 ∧
    countWarns (uploadNoteSrc "note" "h" (fun _ => false)).1 ≠
      countFailed (uploadNoteSrc "note" "h" (fun _ => false)).1 := by
  decide

/-- C7 amended: in `_upload_note`, every failed attempt that is followed
by another attempt logs one warning, but a failure on the final (fifth)
attempt re-raises without logging; hence an all-fail run logs 4 warnings
for its 5 failed attempts, while a run that succeeds on attempt `k + 1`
logs exactly `k` warnings for its `k` failed attempts. -/
theorem warn_per_attempt (title hash : String) (outcome : Nat → Bool) (k : Nat) :
    ((∀ i, outcome i = false) →
      countFailed (uploadNoteSrc title hash outcome).1 = 5 ∧
      countWarns (uploadNoteSrc title hash outcome).1 = 4 ∧
      (uploadNoteSrc title hash outcome).2 = false) ∧
    (k < 5 → outcome k = true → (∀ i, i < k → outcome i = false) →
      countFailed (uploadNoteSrc title hash outcome).1 = k ∧
      countWarns (uploadNoteSrc title hash outcome).1 = k ∧
      (uploadNoteSrc title hash outcome).2 = true) := by
  constructor
  · intro hf
    simp [uploadNoteSrc, uploadAttemptsFrom, hf, countFailed, countWarns]
  · intro hk hs hp
    interval_cases k <;>
      simp_all [uploadNoteSrc, uploadAttemptsFrom, countFailed, countWarns]

/-- C7 witness: a run succeeding on the third attempt logs 2 warnings for
its 2 failed attempts. -/
theorem warn_per_attempt_witness :
    countFailed (uploadNoteSrc "note" "h" (fun i => decide (i = 2))).1 = 2 ∧
    countWarns (uploadNoteSrc "note" "h" (fun i => decide (i = 2))).1 = 2 ∧
    (uploadNoteSrc "note" "h" (fun i => decide (i = 2))).2 = true :=
  (warn_per_attempt "note" "h" (fun i => decide (i = 2)) 2).2 (by omega) rfl
    (fun i hi => by interval_cases i <;> rfl)

/-! ### The per-file upload loop (`EnexUploader.upload`) -/

/-- One ENEX note as seen by the upload loop, together with the oracles for
its external interactions: `parseResult` is the outcome of `parse_note`
(`none` = an unhandled exception propagates, `some b` = it returns a block
list whose nonemptiness is `b`), and `outcome i` is the result of the
`i`-th `upload_note` attempt for this note. -/
structure SrcNote where
  title : String
  noteHash : String
  parseResult : Option Bool
  outcome : Nat → Bool

/-- Per-run configuration of `EnexUploader` (`cli.py` lines 58-79):
whether an import root was resolved (a token was given), the notebook
mode, and whether a done file was configured.  The `custom_tag` injection
of lines 91-92 only mutates the note record and is observed by no claim,
so it is not modelled. -/
structure UploaderCfg where
  importRoot : Bool
  modeDB : Bool
  hasDoneFile : Bool

/-- Mutable state of one run: the in-memory done set (`DoneFile.done_hashes`
or the plain `set()` of line 74) and the lines so far appended to the done
file. -/
structure UploaderState where
  done : List String
  ledger : List String

/-- From the loop body of `EnexUploader.upload` (`cli.py` lines 86-100):
process one note.  Returns the trace of events, the new state, and whether
processing ended normally (`false` = an exception propagated and the run
aborts).  A note whose hash is in the done set is skipped; then the note
is parsed (a parse exception is logged and re-raised, lines 102-114); an
empty block list skips the note; with a notebook root present the note is
uploaded via `_upload_note` and, on success, its hash is added to the done
set, which also appends one line to the done file when one is configured
(`DoneFile.add`, lines 37-41). -/
def processNote (cfg : UploaderCfg) (rootPresent : Bool) (note : SrcNote)
    (st : UploaderState) : List Event × UploaderState × Bool :=
  if note.noteHash ∈ st.done then
    ([Event.skipDupe note.noteHash], st, true)
  else
    match note.parseResult with
    | none => ([Event.parseCall note.noteHash], st, false)
    | some blocksNonempty =>
      if !blocksNonempty then
        ([Event.parseCall note.noteHash], st, true)
      else if rootPresent then
        let up := uploadNoteSrc note.title note.noteHash note.outcome
        if up.2 then
          (Event.parseCall note.noteHash :: up.1 ++
              (if cfg.hasDoneFile then [Event.ledgerAppend note.noteHash] else []),
            { done := note.noteHash :: st.done,
              ledger :=
                if cfg.hasDoneFile then st.ledger ++ [note.noteHash]
                else st.ledger },
            true)
        else
          (Event.parseCall note.noteHash :: up.1, st, false)
      else
        ([Event.parseCall note.noteHash], st, true)

/-- From `EnexUploader.upload` (`cli.py` lines 86-100): the note loop,
stopping at the first propagated exception. -/
def runNotes (cfg : UploaderCfg) (rootPresent : Bool) :
    List SrcNote → UploaderState → List Event × UploaderState × Bool
  | [], st => ([], st, true)
  | n :: ns, st =>
    let r := processNote cfg rootPresent n st
    if r.2.2 then
      let rest := runNotes cfg rootPresent ns r.2.1
      (r.1 ++ rest.1, rest.2.1, rest.2.2)
    else
      (r.1, r.2.1, false)

/-- From `EnexUploader.upload` plus `_get_notebook_root` (`cli.py` lines
81-100 and 116-123): per file, the notebook container is resolved once
(only when an import root is present, dispatching on the mode), then the
notes are processed in order.  Container resolution is modelled as
succeeding; its failure policy is outside the claims on this code. -/
def uploadFile (cfg : UploaderCfg) (stem : String) (notes : List SrcNote)
    (st : UploaderState) : List Event × UploaderState × Bool :=
  let rootEvents :=
    if cfg.importRoot then
      [if cfg.modeDB then Event.getNotebookDB stem else Event.getNotebookPage stem]
    else []
  let r := runNotes cfg cfg.importRoot notes st
  (rootEvents ++ r.1, r.2.1, r.2.2)

/-- From `get_root` (`cli.py` lines 157-170): a missing (or empty, hence
falsy) token means dry-run mode: a warning is logged and no root is
resolved, without contacting the client.  With a token the client is
created and the import root fetched (the `BadTokenException` exit is not
claimed and is modelled as the client call succeeding). -/
def getRoot (token : Option String) (name : String) : List Event × Bool :=
  match token with
  | none => ([Event.warnDryRun], false)
  | some _ => ([Event.getClient, Event.getImportRoot name], true)

/-! ### Trace predicates for the ledger-timing claim -/

/-- Hashes appended to the ledger in a trace, in order. -/
def appendsOf (tr : List Event) : List String :=
  tr.filterMap fun e =>
    match e with
    | Event.ledgerAppend h => some h
    | _ => none

/-- Whether an event is a ledger append. -/
def isAppend : Event → Bool
  | Event.ledgerAppend _ => true
  | _ => false

/-- Check for one adjacent pair of trace events: a ledger append must be
immediately preceded by a successful `upload_note` call for its hash. -/
def appendCheck (prev e : Event) : Bool :=
  match e with
  | Event.ledgerAppend h => decide (prev = Event.uploadCall h true)
  | _ => true

/-- Scanning check, carrying the previous event: every ledger append for a
hash is immediately preceded by a successful `upload_note` call for that
same hash. -/
def appendsFollowFrom : Event → List Event → Bool
  | _, [] => true
  | prev, e :: rest => appendCheck prev e && appendsFollowFrom e rest

/-- Every ledger append in the trace comes immediately after a successful
`upload_note` call for the same hash (in particular no append happens
before or during an upload). -/
def appendsFollow : List Event → Bool
  | [] => true
  | e :: rest => !(isAppend e) && appendsFollowFrom e rest

theorem appendCheck_of_not_append (p e : Event) (he : isAppend e = false) :
    appendCheck p e = true := by
  cases e <;> simp_all [isAppend, appendCheck]

theorem appendsFollowFrom_no_appends (l : List Event)
    (h : ∀ e ∈ l, isAppend e = false) : ∀ p, appendsFollowFrom p l = true := by
  induction l with
  | nil => intro p; rfl
  | cons e rest ih =>
    intro p
    have he : isAppend e = false := h e (List.mem_cons_self e rest)
    have hrest : ∀ x ∈ rest, isAppend x = false := fun x hx =>
      h x (List.mem_cons_of_mem e hx)
    rw [appendsFollowFrom, appendCheck_of_not_append p e he, ih hrest e]
    rfl

theorem appendsFollowFrom_append {B : List Event} (hB : appendsFollow B = true) :
    ∀ (A : List Event) (p : Event), appendsFollowFrom p A = true →
      appendsFollowFrom p (A ++ B) = true := by
  intro A
  induction A with
  | nil =>
    intro p _
    cases B with
    | nil => rfl
    | cons e rest =>
      rw [List.nil_append, appendsFollowFrom]
      rw [appendsFollow] at hB
      simp only [Bool.and_eq_true, Bool.not_eq_true'] at hB
      rw [appendCheck_of_not_append p e hB.1, hB.2]
      rfl
  | cons a A ih =>
    intro p hp
    rw [List.cons_append, appendsFollowFrom]
    rw [appendsFollowFrom] at hp
    simp only [Bool.and_eq_true] at hp ⊢
    exact ⟨hp.1, ih a hp.2⟩

theorem appendsFollow_append {A B : List Event} (hA : appendsFollow A = true)
    (hB : appendsFollow B = true) : appendsFollow (A ++ B) = true := by
  cases A with
  | nil => simpa using hB
  | cons e A =>
    rw [List.cons_append, appendsFollow]
    rw [appendsFollow] at hA
    simp only [Bool.and_eq_true] at hA ⊢
    exact ⟨hA.1, appendsFollowFrom_append hB A e hA.2⟩

/-! ### Facts about the trace of one `_upload_note` run -/

theorem uploadAttempts_events (title hash : String) (outcome : Nat → Bool) :
    ∀ fuel attempt, ∀ e ∈ (uploadAttemptsFrom title hash outcome attempt fuel).1,
      (∃ b, e = Event.uploadCall hash b) ∨ e = Event.warnRetry title := by
  intro fuel
  induction fuel with
  | zero => intro attempt e he; simp [uploadAttemptsFrom] at he
  | succ fuel ih =>
    intro attempt e he
    rw [uploadAttemptsFrom] at he
    by_cases h1 : outcome attempt
    · simp only [h1, if_true, List.mem_singleton] at he
      exact Or.inl ⟨true, he⟩
    · simp only [h1, Bool.false_eq_true, if_false] at he
      by_cases h2 : attempt = 4
      · simp only [h2, if_true, List.mem_singleton] at he
        exact Or.inl ⟨false, he⟩
      · simp only [h2, if_false, List.mem_cons] at he
        rcases he with he | he | he
        · exact Or.inl ⟨false, he⟩
        · exact Or.inr he
        · exact ih (attempt + 1) e he

theorem uploadAttempts_success_mem (title hash : String) (outcome : Nat → Bool) :
    ∀ fuel attempt, attempt ≤ 4 → attempt + fuel = 5 →
      ((Event.uploadCall hash true ∈
          (uploadAttemptsFrom title hash outcome attempt fuel).1) ↔
        (uploadAttemptsFrom title hash outcome attempt fuel).2 = true) := by
  intro fuel
  induction fuel with
  | zero => intro attempt h1 h2; omega
  | succ fuel ih =>
    intro attempt h1 h2
    rw [uploadAttemptsFrom]
    by_cases hout : outcome attempt
    · simp [hout]
    · simp only [hout, Bool.false_eq_true, if_false]
      by_cases h4 : attempt = 4
      · simp [h4]
      · have hfuel : attempt + 1 + fuel = 5 := by omega
        have hle : attempt + 1 ≤ 4 := by omega
        simp only [h4, if_false, List.mem_cons]
        rw [← ih (attempt + 1) hle hfuel]
        simp

theorem uploadAttempts_followed (title hash : String) (outcome : Nat → Bool) :
    ∀ fuel attempt, attempt ≤ 4 → attempt + fuel = 5 →
      (uploadAttemptsFrom title hash outcome attempt fuel).2 = true →
      ∀ p, appendsFollowFrom p
          ((uploadAttemptsFrom title hash outcome attempt fuel).1 ++
            [Event.ledgerAppend hash]) = true := by
  intro fuel
  induction fuel with
  | zero => intro attempt h1 h2; omega
  | succ fuel ih =>
    intro attempt h1 h2 hok p
    rw [uploadAttemptsFrom] at hok ⊢
    by_cases hout : outcome attempt
    · simp [hout, appendsFollowFrom, appendCheck]
    · simp only [hout, Bool.false_eq_true, if_false] at hok ⊢
      by_cases h4 : attempt = 4
      · simp [h4] at hok
      · simp only [h4, if_false] at hok ⊢
        rw [List.cons_append, List.cons_append, appendsFollowFrom,
          appendsFollowFrom]
        simp only [Bool.and_eq_true]
        refine ⟨by simp [appendCheck], by simp [appendCheck], ?_⟩
        exact ih (attempt + 1) (by omega) (by omega) hok (Event.warnRetry title)

/-! ### Case analysis of one note's processing -/

theorem processNote_cases (cfg : UploaderCfg) (rootPresent : Bool)
    (note : SrcNote) (st : UploaderState) :
    (note.noteHash ∈ st.done ∧
      processNote cfg rootPresent note st
        = ([Event.skipDupe note.noteHash], st, true)) ∨
    (note.noteHash ∉ st.done ∧ note.parseResult = none ∧
      processNote cfg rootPresent note st
        = ([Event.parseCall note.noteHash], st, false)) ∨
    (note.noteHash ∉ st.done ∧ note.parseResult = some false ∧
      processNote cfg rootPresent note st
        = ([Event.parseCall note.noteHash], st, true)) ∨
    (note.noteHash ∉ st.done ∧ note.parseResult = some true ∧
      rootPresent = false ∧
      processNote cfg rootPresent note st
        = ([Event.parseCall note.noteHash], st, true)) ∨
    (note.noteHash ∉ st.done ∧ note.parseResult = some true ∧
      rootPresent = true ∧
      (uploadNoteSrc note.title note.noteHash note.outcome).2 = true ∧
      processNote cfg rootPresent note st
        = (Event.parseCall note.noteHash ::
              (uploadNoteSrc note.title note.noteHash note.outcome).1 ++
              (if cfg.hasDoneFile then [Event.ledgerAppend note.noteHash] else []),
            { done := note.noteHash :: st.done,
              ledger :=
                if cfg.hasDoneFile then st.ledger ++ [note.noteHash]
                else st.ledger },
            true)) ∨
    (note.noteHash ∉ st.done ∧ note.parseResult = some true ∧
      rootPresent = true ∧
      (uploadNoteSrc note.title note.noteHash note.outcome).2 = false ∧
      processNote cfg rootPresent note st
        = (Event.parseCall note.noteHash ::
              (uploadNoteSrc note.title note.noteHash note.outcome).1,
            st, false)) := by
  by_cases hmem : note.noteHash ∈ st.done
  · exact Or.inl ⟨hmem, by rw [processNote, if_pos hmem]⟩
  · rcases hpr : note.parseResult with _ | b
    · refine Or.inr (Or.inl ⟨hmem, rfl, ?_⟩)
      rw [processNote, if_neg hmem, hpr]
    · cases b
      · refine Or.inr (Or.inr (Or.inl ⟨hmem, rfl, ?_⟩))
        rw [processNote, if_neg hmem, hpr]
        rfl
      · cases hroot : rootPresent
        · refine Or.inr (Or.inr (Or.inr (Or.inl ⟨hmem, rfl, rfl, ?_⟩)))
          rw [processNote, if_neg hmem, hpr]
          rfl
        · cases hup : (uploadNoteSrc note.title note.noteHash note.outcome).2
          · refine Or.inr (Or.inr (Or.inr (Or.inr (Or.inr
              ⟨hmem, rfl, rfl, rfl, ?_⟩))))
            rw [processNote, if_neg hmem, hpr]
            simp [hup]
          · refine Or.inr (Or.inr (Or.inr (Or.inr (Or.inl
              ⟨hmem, rfl, rfl, rfl, ?_⟩))))
            rw [processNote, if_neg hmem, hpr]
            simp [hup]

/-! ### Counting helpers over trace concatenation -/

theorem countAppends_append (A B : List Event) (h : String) :
    countAppends (A ++ B) h = countAppends A h + countAppends B h := by
  simp [countAppends, List.filter_append]

theorem countUploads_append (A B : List Event) (h : String) :
    countUploads (A ++ B) h = countUploads A h + countUploads B h := by
  simp [countUploads, List.filter_append]

theorem countSkips_append (A B : List Event) (h : String) :
    countSkips (A ++ B) h = countSkips A h + countSkips B h := by
  simp [countSkips, List.filter_append]

theorem successFor_append (A B : List Event) (h : String) :
    successFor (A ++ B) h = (successFor A h || successFor B h) := by
  simp [successFor, List.any_append]

theorem appendsOf_append (A B : List Event) :
    appendsOf (A ++ B) = appendsOf A ++ appendsOf B := by
  simp [appendsOf, List.filterMap_append]

theorem uploadTrace_no_appends (title hash : String) (outcome : Nat → Bool)
    (h : String) :
    countAppends (uploadNoteSrc title hash outcome).1 h = 0 := by
  rw [countAppends, List.length_eq_zero, List.filter_eq_nil_iff]
  intro e he
  rcases uploadAttempts_events title hash outcome 5 0 e he with ⟨b, rfl⟩ | rfl <;>
    simp

theorem uploadTrace_appendsOf (title hash : String) (outcome : Nat → Bool) :
    appendsOf (uploadNoteSrc title hash outcome).1 = [] := by
  rw [appendsOf, List.filterMap_eq_nil_iff]
  intro e he
  rcases uploadAttempts_events title hash outcome 5 0 e he with ⟨b, rfl⟩ | rfl <;>
    rfl

theorem uploadTrace_isAppend_false (title hash : String) (outcome : Nat → Bool) :
    ∀ e ∈ (uploadNoteSrc title hash outcome).1, isAppend e = false := by
  intro e he
  rcases uploadAttempts_events title hash outcome 5 0 e he with ⟨b, rfl⟩ | rfl <;>
    rfl

theorem uploadTrace_no_skips (title hash : String) (outcome : Nat → Bool)
    (h : String) :
    countSkips (uploadNoteSrc title hash outcome).1 h = 0 := by
  rw [countSkips, List.length_eq_zero, List.filter_eq_nil_iff]
  intro e he
  rcases uploadAttempts_events title hash outcome 5 0 e he with ⟨b, rfl⟩ | rfl <;>
    simp

theorem uploadTrace_other_hash (title hash : String) (outcome : Nat → Bool)
    (h : String) (hne : h ≠ hash) :
    countUploads (uploadNoteSrc title hash outcome).1 h = 0 ∧
    successFor (uploadNoteSrc title hash outcome).1 h = false := by
  constructor
  · rw [countUploads, List.length_eq_zero, List.filter_eq_nil_iff]
    intro e he
    rcases uploadAttempts_events title hash outcome 5 0 e he with ⟨b, rfl⟩ | rfl
    · simp [Ne.symm hne]
    · simp
  · rw [successFor, List.any_eq_false]
    intro e he
    rcases uploadAttempts_events title hash outcome 5 0 e he with ⟨b, rfl⟩ | rfl
    · simp [Ne.symm hne]
    · simp

theorem uploadTrace_success_iff (title hash : String) (outcome : Nat → Bool) :
    successFor (uploadNoteSrc title hash outcome).1 hash = true ↔
      (uploadNoteSrc title hash outcome).2 = true := by
  rw [successFor, List.any_eq_true]
  constructor
  · rintro ⟨e, he, hdec⟩
    rw [decide_eq_true_eq] at hdec
    subst hdec
    exact (uploadAttempts_success_mem title hash outcome 5 0 (by omega) rfl).1 he
  · intro hok
    exact ⟨Event.uploadCall hash true,
      (uploadAttempts_success_mem title hash outcome 5 0 (by omega) rfl).2 hok,
      by simp⟩

theorem countAppends_nil (h : String) : countAppends [] h = 0 := rfl

theorem successFor_nil (h : String) : successFor [] h = false := rfl

theorem countAppends_cons_self (tr : List Event) (h : String) :
    countAppends (Event.ledgerAppend h :: tr) h = countAppends tr h + 1 := by
  simp [countAppends, List.filter_cons]

theorem countAppends_cons_ne (e : Event) (tr : List Event) (h : String)
    (hne : e ≠ Event.ledgerAppend h) :
    countAppends (e :: tr) h = countAppends tr h := by
  simp [countAppends, List.filter_cons, hne]

theorem successFor_cons (e : Event) (tr : List Event) (h : String) :
    successFor (e :: tr) h
      = (decide (e = Event.uploadCall h true) || successFor tr h) := by
  simp [successFor]

theorem countUploads_cons_call (hash : String) (b : Bool) (tr : List Event)
    (h : String) :
    countUploads (Event.uploadCall hash b :: tr) h
      = (if hash = h then 1 else 0) + countUploads tr h := by
  by_cases he : hash = h <;> simp [countUploads, List.filter_cons, he, Nat.add_comm]

theorem countUploads_cons_other (e : Event) (tr : List Event) (h : String)
    (hne : ∀ hash b, e ≠ Event.uploadCall hash b) :
    countUploads (e :: tr) h = countUploads tr h := by
  cases e
  case uploadCall hash b => exact absurd rfl (hne hash b)
  all_goals simp [countUploads, List.filter_cons]

theorem countSkips_cons_self (tr : List Event) (h : String) :
    countSkips (Event.skipDupe h :: tr) h = countSkips tr h + 1 := by
  simp [countSkips, List.filter_cons]

theorem countSkips_cons_ne (e : Event) (tr : List Event) (h : String)
    (hne : e ≠ Event.skipDupe h) :
    countSkips (e :: tr) h = countSkips tr h := by
  simp [countSkips, List.filter_cons, hne]

theorem appendsOf_cons_append (h : String) (tr : List Event) :
    appendsOf (Event.ledgerAppend h :: tr) = h :: appendsOf tr := rfl

theorem appendsOf_cons_other (e : Event) (tr : List Event)
    (hne : isAppend e = false) : appendsOf (e :: tr) = appendsOf tr := by
  cases e <;> simp_all [appendsOf, isAppend]

theorem uploadNoteSrc_followed (t h : String) (o : Nat → Bool)
    (hok : (uploadNoteSrc t h o).2 = true) :
    ∀ p, appendsFollowFrom p
        ((uploadNoteSrc t h o).1 ++ [Event.ledgerAppend h]) = true :=
  uploadAttempts_followed t h o 5 0 (by omega) rfl hok

theorem uploadNoteSrc_not_success (t h : String) (o : Nat → Bool)
    (hfail : (uploadNoteSrc t h o).2 = false) :
    successFor (uploadNoteSrc t h o).1 h = false := by
  have hiff := uploadTrace_success_iff t h o
  rw [hfail] at hiff
  simp only [Bool.false_eq_true, iff_false, Bool.not_eq_true] at hiff
  exact hiff

/-! ### Run-level ledger invariants -/

theorem runNotes_ledger (cfg : UploaderCfg) (hdf : cfg.hasDoneFile = true)
    (rootPresent : Bool) (notes : List SrcNote) :
    ∀ st : UploaderState,
      (runNotes cfg rootPresent notes st).2.1.ledger
          = st.ledger ++ appendsOf (runNotes cfg rootPresent notes st).1 ∧
      appendsFollow (runNotes cfg rootPresent notes st).1 = true ∧
      (∀ h, h ∈ st.done →
          countAppends (runNotes cfg rootPresent notes st).1 h = 0 ∧
          successFor (runNotes cfg rootPresent notes st).1 h = false) ∧
      (∀ h, countAppends (runNotes cfg rootPresent notes st).1 h ≤ 1) ∧
      (∀ h, successFor (runNotes cfg rootPresent notes st).1 h = true ↔
          countAppends (runNotes cfg rootPresent notes st).1 h = 1) := by
  induction notes with
  | nil =>
    intro st
    simp [runNotes, countAppends, successFor, appendsOf, appendsFollow]
  | cons n ns ih =>
    intro st
    rcases processNote_cases cfg rootPresent n st with
      ⟨hmem, heq⟩ | ⟨hmem, hpr, heq⟩ | ⟨hmem, hpr, heq⟩ | ⟨hmem, hpr, hroot, heq⟩ |
      ⟨hmem, hpr, hroot, hup, heq⟩ | ⟨hmem, hpr, hroot, hup, heq⟩
    -- note already done: skipped
    · obtain ⟨ih1, ih2, ih3, ih4, ih5⟩ := ih st
      simp only [runNotes, heq, if_true, List.singleton_append]
      have hne : ∀ h : String,
          Event.skipDupe n.noteHash ≠ Event.ledgerAppend h := by intro h; simp
      refine ⟨?_, ?_, ?_, ?_, ?_⟩
      · rw [appendsOf_cons_other (Event.skipDupe n.noteHash) _ rfl]; exact ih1
      · rw [← List.singleton_append]
        exact appendsFollow_append rfl ih2
      · intro h hh
        rw [countAppends_cons_ne _ _ _ (hne h), successFor_cons]
        simpa using ih3 h hh
      · intro h
        rw [countAppends_cons_ne _ _ _ (hne h)]
        exact ih4 h
      · intro h
        rw [countAppends_cons_ne _ _ _ (hne h), successFor_cons]
        simpa using ih5 h
    -- parse raised: run aborts with this note's parse call only
    · simp only [runNotes, heq, Bool.false_eq_true, if_false]
      have hne : ∀ h : String,
          Event.parseCall n.noteHash ≠ Event.ledgerAppend h := by intro h; simp
      refine ⟨?_, rfl, ?_, ?_, ?_⟩
      · rw [appendsOf_cons_other (Event.parseCall n.noteHash) _ rfl]
        simp [appendsOf]
      · intro h hh
        rw [countAppends_cons_ne _ _ _ (hne h), successFor_cons]
        simp [countAppends, successFor]
      · intro h
        rw [countAppends_cons_ne _ _ _ (hne h)]
        simp [countAppends]
      · intro h
        rw [countAppends_cons_ne _ _ _ (hne h), successFor_cons]
        simp [countAppends, successFor]
    -- empty block list: note skipped after parsing
    · obtain ⟨ih1, ih2, ih3, ih4, ih5⟩ := ih st
      simp only [runNotes, heq, if_true, List.singleton_append]
      have hne : ∀ h : String,
          Event.parseCall n.noteHash ≠ Event.ledgerAppend h := by intro h; simp
      refine ⟨?_, ?_, ?_, ?_, ?_⟩
      · rw [appendsOf_cons_other (Event.parseCall n.noteHash) _ rfl]; exact ih1
      · rw [← List.singleton_append]
        exact appendsFollow_append rfl ih2
      · intro h hh
        rw [countAppends_cons_ne _ _ _ (hne h), successFor_cons]
        simpa using ih3 h hh
      · intro h
        rw [countAppends_cons_ne _ _ _ (hne h)]
        exact ih4 h
      · intro h
        rw [countAppends_cons_ne _ _ _ (hne h), successFor_cons]
        simpa using ih5 h
    -- dry run: parsed but not uploaded
    · obtain ⟨ih1, ih2, ih3, ih4, ih5⟩ := ih st
      simp only [runNotes, heq, if_true, List.singleton_append]
      have hne : ∀ h : String,
          Event.parseCall n.noteHash ≠ Event.ledgerAppend h := by intro h; simp
      refine ⟨?_, ?_, ?_, ?_, ?_⟩
      · rw [appendsOf_cons_other (Event.parseCall n.noteHash) _ rfl]; exact ih1
      · rw [← List.singleton_append]
        exact appendsFollow_append rfl ih2
      · intro h hh
        rw [countAppends_cons_ne _ _ _ (hne h), successFor_cons]
        simpa using ih3 h hh
      · intro h
        rw [countAppends_cons_ne _ _ _ (hne h)]
        exact ih4 h
      · intro h
        rw [countAppends_cons_ne _ _ _ (hne h), successFor_cons]
        simpa using ih5 h
    -- upload succeeded: ledger append follows the successful call
    · simp only [hdf, eq_self_iff_true, if_true] at heq
      obtain ⟨ih1, ih2, ih3, ih4, ih5⟩ :=
        ih { done := n.noteHash :: st.done, ledger := st.ledger ++ [n.noteHash] }
      simp only [runNotes, heq, if_true, List.cons_append]
      have hApp : appendsOf
          ((uploadNoteSrc n.title n.noteHash n.outcome).1 ++
            [Event.ledgerAppend n.noteHash]) = [n.noteHash] := by
        rw [appendsOf_append, uploadTrace_appendsOf]
        rfl
      refine ⟨?_, ?_, ?_, ?_, ?_⟩
      · rw [appendsOf_cons_other (Event.parseCall n.noteHash) _ rfl,
          appendsOf_append, hApp, ih1]
        simp
      · rw [← List.singleton_append, ← List.append_assoc]
        refine appendsFollow_append ?_ ih2
        rw [List.singleton_append, appendsFollow]
        simp only [isAppend, Bool.not_false, Bool.true_and]
        exact uploadNoteSrc_followed n.title n.noteHash n.outcome hup
          (Event.parseCall n.noteHash)
      · intro h hh
        have hneq : h ≠ n.noteHash := fun hcon => hmem (hcon ▸ hh)
        constructor
        · rw [countAppends_cons_ne _ _ _ (by simp), countAppends_append,
            countAppends_append, uploadTrace_no_appends,
            countAppends_cons_ne _ _ _ (by simp [Ne.symm hneq]), countAppends_nil,
            (ih3 h (List.mem_cons_of_mem _ hh)).1]
        · rw [successFor_cons, successFor_append, successFor_append,
            (uploadTrace_other_hash _ _ _ h hneq).2,
            successFor_cons, (ih3 h (List.mem_cons_of_mem _ hh)).2,
            successFor_nil]
          simp [Ne.symm hneq]
      · intro h
        by_cases hcase : h = n.noteHash
        · subst hcase
          rw [countAppends_cons_ne _ _ _ (by simp), countAppends_append,
            countAppends_append, uploadTrace_no_appends, countAppends_cons_self,
            countAppends_nil, (ih3 n.noteHash (List.mem_cons_self _ _)).1]
        · rw [countAppends_cons_ne _ _ _ (by simp), countAppends_append,
            countAppends_append, uploadTrace_no_appends,
            countAppends_cons_ne _ _ _ (by simp [Ne.symm hcase]), countAppends_nil]
          simpa using ih4 h
      · intro h
        by_cases hcase : h = n.noteHash
        · subst hcase
          rw [countAppends_cons_ne _ _ _ (by simp), countAppends_append,
            countAppends_append, uploadTrace_no_appends, countAppends_cons_self,
            countAppends_nil, (ih3 n.noteHash (List.mem_cons_self _ _)).1,
            successFor_cons, successFor_append, successFor_append,
            (uploadTrace_success_iff n.title n.noteHash n.outcome).2 hup,
            (ih3 n.noteHash (List.mem_cons_self _ _)).2]
          simp
        · rw [countAppends_cons_ne _ _ _ (by simp), countAppends_append,
            countAppends_append, uploadTrace_no_appends,
            countAppends_cons_ne _ _ _ (by simp [Ne.symm hcase]), countAppends_nil,
            successFor_cons, successFor_append, successFor_append,
            (uploadTrace_other_hash _ _ _ h hcase).2, successFor_cons,
            successFor_nil]
          simpa [Ne.symm hcase] using ih5 h
    -- upload failed terminally: run aborts, no append
    · simp only [runNotes, heq, Bool.false_eq_true, if_false]
      refine ⟨?_, ?_, ?_, ?_, ?_⟩
      · rw [appendsOf_cons_other (Event.parseCall n.noteHash) _ rfl,
          uploadTrace_appendsOf]
        simp
      · rw [appendsFollow]
        simp only [isAppend, Bool.not_false, Bool.true_and]
        exact appendsFollowFrom_no_appends _
          (uploadTrace_isAppend_false n.title n.noteHash n.outcome) _
      · intro h hh
        have hneq : h ≠ n.noteHash := fun hcon => hmem (hcon ▸ hh)
        constructor
        · rw [countAppends_cons_ne _ _ _ (by simp), uploadTrace_no_appends]
        · rw [successFor_cons, (uploadTrace_other_hash _ _ _ h hneq).2]
          simp
      · intro h
        rw [countAppends_cons_ne _ _ _ (by simp), uploadTrace_no_appends]
        omega
      · intro h
        by_cases hcase : h = n.noteHash
        · subst hcase
          rw [countAppends_cons_ne _ _ _ (by simp), uploadTrace_no_appends,
            successFor_cons, uploadNoteSrc_not_success _ _ _ hup]
          simp
        · rw [countAppends_cons_ne _ _ _ (by simp), uploadTrace_no_appends,
            successFor_cons, (uploadTrace_other_hash _ _ _ h hcase).2]
          simp

/-- C3, Ledger write timing: in any run of `EnexUploader.upload` with a
done file configured, every ledger append is immediately preceded by the
successful `upload_note` call for that same fingerprint (so no entry is
ever written before or during an upload), at most one append happens per
fingerprint, an append happens exactly when an upload of that fingerprint
succeeded (so a note whose upload fails or whose run is interrupted leaves
no entry), and the final ledger file is the initial one plus exactly the
appended fingerprints. -/
theorem ledger_write_timing (cfg : UploaderCfg) (hdf : cfg.hasDoneFile = true)
    (stem : String) (notes : List SrcNote) (st : UploaderState) :
    appendsFollow (uploadFile cfg stem notes st).1 = true ∧
    (∀ h, countAppends (uploadFile cfg stem notes st).1 h ≤ 1) ∧
    (∀ h, successFor (uploadFile cfg stem notes st).1 h = true ↔
        countAppends (uploadFile cfg stem notes st).1 h = 1) ∧
    (uploadFile cfg stem notes st).2.1.ledger
        = st.ledger ++ appendsOf (uploadFile cfg stem notes st).1 := by
  simp only [uploadFile]
  cases hir : cfg.importRoot
  · obtain ⟨ih1, ih2, ih3, ih4, ih5⟩ := runNotes_ledger cfg hdf false notes st
    simp only [Bool.false_eq_true, if_false, List.nil_append]
    exact ⟨ih2, ih4, ih5, ih1⟩
  · obtain ⟨ih1, ih2, ih3, ih4, ih5⟩ := runNotes_ledger cfg hdf true notes st
    simp only [if_true, List.singleton_append]
    have hE : isAppend
        (if cfg.modeDB then Event.getNotebookDB stem
         else Event.getNotebookPage stem) = false := by
      cases cfg.modeDB <;> rfl
    have hEne : ∀ h, (if cfg.modeDB then Event.getNotebookDB stem
        else Event.getNotebookPage stem) ≠ Event.ledgerAppend h := by
      intro h
      cases cfg.modeDB <;> simp
    have hEnc : ∀ h, decide ((if cfg.modeDB then Event.getNotebookDB stem
        else Event.getNotebookPage stem) = Event.uploadCall h true) = false := by
      intro h
      cases cfg.modeDB <;> simp
    refine ⟨?_, ?_, ?_, ?_⟩
    · rw [← List.singleton_append]
      refine appendsFollow_append ?_ ih2
      rw [appendsFollow, hE]
      rfl
    · intro h
      rw [countAppends_cons_ne _ _ _ (hEne h)]
      exact ih4 h
    · intro h
      rw [countAppends_cons_ne _ _ _ (hEne h), successFor_cons, hEnc h]
      simpa using ih5 h
    · rw [appendsOf_cons_other _ _ hE]
      exact ih1

/-- C3 witness: one note uploaded successfully in a run with a done file. -/
theorem ledger_write_timing_witness :
    appendsFollow (uploadFile ⟨true, true, true⟩ "book"
        [⟨"t", "h", some true, fun _ => true⟩] ⟨[], []⟩).1 = true ∧
    (uploadFile ⟨true, true, true⟩ "book"
        [⟨"t", "h", some true, fun _ => true⟩] ⟨[], []⟩).2.1.ledger
      = (⟨[], []⟩ : UploaderState).ledger ++
          appendsOf (uploadFile ⟨true, true, true⟩ "book"
            [⟨"t", "h", some true, fun _ => true⟩] ⟨[], []⟩).1 :=
  ⟨(ledger_write_timing ⟨true, true, true⟩ rfl "book"
      [⟨"t", "h", some true, fun _ => true⟩] ⟨[], []⟩).1,
    (ledger_write_timing ⟨true, true, true⟩ rfl "book"
      [⟨"t", "h", some true, fun _ => true⟩] ⟨[], []⟩).2.2.2⟩

/-! ### Dry run -/

theorem runNotes_dry (cfg : UploaderCfg) (notes : List SrcNote) :
    ∀ st : UploaderState, (∀ n ∈ notes, n.parseResult ≠ none) →
      (runNotes cfg false notes st).2.1 = st ∧
      (runNotes cfg false notes st).2.2 = true ∧
      (∀ e ∈ (runNotes cfg false notes st).1,
        (∃ h, e = Event.skipDupe h) ∨ ∃ h, e = Event.parseCall h) ∧
      (∀ n ∈ notes, n.noteHash ∉ st.done →
        Event.parseCall n.noteHash ∈ (runNotes cfg false notes st).1) := by
  induction notes with
  | nil =>
    intro st _
    exact ⟨rfl, rfl, by simp [runNotes], by simp⟩
  | cons n ns ih =>
    intro st hparse
    have hprn : n.parseResult ≠ none := hparse n (List.mem_cons_self n ns)
    have hps : ∀ m ∈ ns, m.parseResult ≠ none := fun m hm =>
      hparse m (List.mem_cons_of_mem n hm)
    obtain ⟨ih1, ih2, ih3, ih4⟩ := ih st hps
    rcases processNote_cases cfg false n st with
      ⟨hmem, heq⟩ | ⟨_, hpr2, _⟩ | ⟨hmem, hpr2, heq⟩ | ⟨hmem, hpr2, _, heq⟩ |
      ⟨_, _, hroot2, _, _⟩ | ⟨_, _, hroot2, _, _⟩
    · simp only [runNotes, heq, if_true, List.singleton_append]
      refine ⟨ih1, ih2, ?_, ?_⟩
      · intro e he
        rcases List.mem_cons.mp he with rfl | he
        · exact Or.inl ⟨n.noteHash, rfl⟩
        · exact ih3 e he
      · intro m hm hnd
        rcases List.mem_cons.mp hm with rfl | hm
        · exact absurd hmem hnd
        · exact List.mem_cons_of_mem _ (ih4 m hm hnd)
    · exact absurd hpr2 hprn
    · simp only [runNotes, heq, if_true, List.singleton_append]
      refine ⟨ih1, ih2, ?_, ?_⟩
      · intro e he
        rcases List.mem_cons.mp he with rfl | he
        · exact Or.inr ⟨n.noteHash, rfl⟩
        · exact ih3 e he
      · intro m hm hnd
        rcases List.mem_cons.mp hm with rfl | hm
        · exact List.mem_cons_self _ _
        · exact List.mem_cons_of_mem _ (ih4 m hm hnd)
    · simp only [runNotes, heq, if_true, List.singleton_append]
      refine ⟨ih1, ih2, ?_, ?_⟩
      · intro e he
        rcases List.mem_cons.mp he with rfl | he
        · exact Or.inr ⟨n.noteHash, rfl⟩
        · exact ih3 e he
      · intro m hm hnd
        rcases List.mem_cons.mp hm with rfl | hm
        · exact List.mem_cons_self _ _
        · exact List.mem_cons_of_mem _ (ih4 m hm hnd)
    · exact absurd hroot2 (by simp)
    · exact absurd hroot2 (by simp)

/-- C10, Dry-run frame property: with no token, `get_root` logs a warning
and resolves no import root without contacting the client; the run then
resolves no notebook container, makes no `upload_note` calls, appends no
fingerprints to the resume ledger, leaves the state (done set and ledger
file) unchanged and finishes normally, while every note not skipped by the
done set is still parsed into blocks. -/
theorem dry_run_frame (cfg : UploaderCfg) (hroot : cfg.importRoot = false)
    (name stem : String) (notes : List SrcNote) (st : UploaderState)
    (hparse : ∀ n ∈ notes, n.parseResult ≠ none) :
    (getRoot none name).2 = false ∧
    (getRoot none name).1 = [Event.warnDryRun] ∧
    (∀ h b, Event.uploadCall h b ∉ (uploadFile cfg stem notes st).1) ∧
    (∀ h, Event.ledgerAppend h ∉ (uploadFile cfg stem notes st).1) ∧
    (∀ t, Event.getNotebookDB t ∉ (uploadFile cfg stem notes st).1) ∧
    (∀ t, Event.getNotebookPage t ∉ (uploadFile cfg stem notes st).1) ∧
    (uploadFile cfg stem notes st).2.1 = st ∧
    (uploadFile cfg stem notes st).2.2 = true ∧
    (∀ n ∈ notes, n.noteHash ∉ st.done →
      Event.parseCall n.noteHash ∈ (uploadFile cfg stem notes st).1) := by
  obtain ⟨hst, hok, hev, hcov⟩ := runNotes_dry cfg notes st hparse
  simp only [uploadFile, hroot, Bool.false_eq_true, if_false, List.nil_append]
  refine ⟨rfl, rfl, ?_, ?_, ?_, ?_, hst, hok, hcov⟩
  · intro h b hmem
    rcases hev _ hmem with ⟨x, hx⟩ | ⟨x, hx⟩ <;> cases hx
  · intro h hmem
    rcases hev _ hmem with ⟨x, hx⟩ | ⟨x, hx⟩ <;> cases hx
  · intro t hmem
    rcases hev _ hmem with ⟨x, hx⟩ | ⟨x, hx⟩ <;> cases hx
  · intro t hmem
    rcases hev _ hmem with ⟨x, hx⟩ | ⟨x, hx⟩ <;> cases hx

/-- C10 witness: a dry run over one parsable note. -/
theorem dry_run_frame_witness :
    (uploadFile ⟨false, true, true⟩ "book"
        [⟨"t", "h", some true, fun _ => true⟩] ⟨[], []⟩).2.1 = ⟨[], []⟩ ∧
    ∀ h b, Event.uploadCall h b ∉ (uploadFile ⟨false, true, true⟩ "book"
        [⟨"t", "h", some true, fun _ => true⟩] ⟨[], []⟩).1 :=
  ⟨(dry_run_frame ⟨false, true, true⟩ rfl "root" "book"
      [⟨"t", "h", some true, fun _ => true⟩] ⟨[], []⟩
      (fun n hn => by rw [List.mem_singleton] at hn; subst hn; simp)).2.2.2.2.2.2.1,
    (dry_run_frame ⟨false, true, true⟩ rfl "root" "book"
      [⟨"t", "h", some true, fun _ => true⟩] ⟨[], []⟩
      (fun n hn => by rw [List.mem_singleton] at hn; subst hn; simp)).2.2.1⟩

/-! ### Dedup within a run -/

theorem uploadNoteSrc_first_success (t h : String) (o : Nat → Bool)
    (h0 : o 0 = true) :
    uploadNoteSrc t h o = ([Event.uploadCall h true], true) := by
  simp [uploadNoteSrc, uploadAttemptsFrom, h0]

theorem runNotes_dedup (cfg : UploaderCfg) (notes : List SrcNote) :
    ∀ st : UploaderState,
      (∀ n ∈ notes, n.parseResult = some true ∧ n.outcome 0 = true) →
      ∀ h : String,
      (h ∈ st.done →
        countUploads (runNotes cfg true notes st).1 h = 0 ∧
        countSkips (runNotes cfg true notes st).1 h
          = (notes.filter fun n => decide (n.noteHash = h)).length) ∧
      (h ∉ st.done →
        countUploads (runNotes cfg true notes st).1 h
          = min (notes.filter fun n => decide (n.noteHash = h)).length 1 ∧
        countSkips (runNotes cfg true notes st).1 h
          = (notes.filter fun n => decide (n.noteHash = h)).length
            - min (notes.filter fun n => decide (n.noteHash = h)).length 1) := by
  induction notes with
  | nil =>
    intro st _ h
    simp [runNotes, countUploads, countSkips]
  | cons n ns ih =>
    intro st hnp h
    obtain ⟨hpr, hout⟩ := hnp n (List.mem_cons_self n ns)
    have hns : ∀ m ∈ ns, m.parseResult = some true ∧ m.outcome 0 = true :=
      fun m hm => hnp m (List.mem_cons_of_mem n hm)
    have hup := uploadNoteSrc_first_success n.title n.noteHash n.outcome hout
    by_cases hmem : n.noteHash ∈ st.done
    · have heq : processNote cfg true n st
          = ([Event.skipDupe n.noteHash], st, true) := by
        rw [processNote, if_pos hmem]
      simp only [runNotes, heq, if_true, List.singleton_append]
      by_cases hcase : n.noteHash = h
      · subst hcase
        constructor
        · intro hh
          obtain ⟨ihu, ihs⟩ := (ih st hns n.noteHash).1 hh
          rw [countUploads_cons_other _ _ _ (by intro a b; simp),
            countSkips_cons_self, List.filter_cons_of_pos (by simp), ihu, ihs,
            List.length_cons]
          exact ⟨rfl, rfl⟩
        · intro hh
          exact absurd hmem hh
      · constructor
        · intro hh
          obtain ⟨ihu, ihs⟩ := (ih st hns h).1 hh
          rw [countUploads_cons_other _ _ _ (by intro a b; simp),
            countSkips_cons_ne _ _ _ (by simp [hcase]),
            List.filter_cons_of_neg (by simp [hcase]), ihu, ihs]
          exact ⟨by omega, by omega⟩
        · intro hh
          obtain ⟨ihu, ihs⟩ := (ih st hns h).2 hh
          rw [countUploads_cons_other _ _ _ (by intro a b; simp),
            countSkips_cons_ne _ _ _ (by simp [hcase]),
            List.filter_cons_of_neg (by simp [hcase]), ihu, ihs]
          exact ⟨by omega, by omega⟩
    · have heq : processNote cfg true n st
          = (Event.parseCall n.noteHash :: [Event.uploadCall n.noteHash true] ++
              (if cfg.hasDoneFile then [Event.ledgerAppend n.noteHash] else []),
            { done := n.noteHash :: st.done,
              ledger :=
                if cfg.hasDoneFile then st.ledger ++ [n.noteHash]
                else st.ledger }, true) := by
        rw [processNote, if_neg hmem, hpr]
        simp [hup]
      simp only [runNotes, heq, if_true, List.cons_append, List.singleton_append,
        List.nil_append]
      have hifu : ∀ g, countUploads
          (if cfg.hasDoneFile then [Event.ledgerAppend n.noteHash] else []) g
            = 0 := by
        intro g
        cases cfg.hasDoneFile <;> simp [countUploads]
      have hifs : ∀ g, countSkips
          (if cfg.hasDoneFile then [Event.ledgerAppend n.noteHash] else []) g
            = 0 := by
        intro g
        cases cfg.hasDoneFile <;> simp [countSkips, List.filter_cons]
      by_cases hcase : n.noteHash = h
      · subst hcase
        constructor
        · intro hh
          exact absurd hh hmem
        · intro _
          obtain ⟨ihu, ihs⟩ :=
            (ih { done := n.noteHash :: st.done,
                  ledger :=
                    if cfg.hasDoneFile then st.ledger ++ [n.noteHash]
                    else st.ledger } hns n.noteHash).1 (List.mem_cons_self _ _)
          rw [countUploads_cons_other _ _ _ (by intro a b; simp),
            countUploads_cons_call, countUploads_append, hifu, ihu,
            countSkips_cons_ne _ _ _ (by simp),
            countSkips_cons_ne _ _ _ (by simp), countSkips_append, hifs, ihs,
            List.filter_cons_of_pos (by simp), List.length_cons]
          constructor
          · simp
          · simp
      · constructor
        · intro hh
          obtain ⟨ihu, ihs⟩ :=
            (ih { done := n.noteHash :: st.done,
                  ledger :=
                    if cfg.hasDoneFile then st.ledger ++ [n.noteHash]
                    else st.ledger } hns h).1 (List.mem_cons_of_mem _ hh)
          rw [countUploads_cons_other _ _ _ (by intro a b; simp),
            countUploads_cons_call, countUploads_append, hifu, ihu,
            countSkips_cons_ne _ _ _ (by simp),
            countSkips_cons_ne _ _ _ (by simp [hcase]), countSkips_append, hifs,
            ihs, List.filter_cons_of_neg (by simp [hcase])]
          exact ⟨by simp [hcase], by omega⟩
        · intro hh
          have hh' : h ∉ n.noteHash :: st.done := by
            intro hcon
            rcases List.mem_cons.mp hcon with hcon | hcon
            · exact hcase hcon.symm
            · exact hh hcon
          obtain ⟨ihu, ihs⟩ :=
            (ih { done := n.noteHash :: st.done,
                  ledger :=
                    if cfg.hasDoneFile then st.ledger ++ [n.noteHash]
                    else st.ledger } hns h).2 hh'
          rw [countUploads_cons_other _ _ _ (by intro a b; simp),
            countUploads_cons_call, countUploads_append, hifu, ihu,
            countSkips_cons_ne _ _ _ (by simp),
            countSkips_cons_ne _ _ _ (by simp [hcase]), countSkips_append, hifs,
            ihs, List.filter_cons_of_neg (by simp [hcase])]
          exact ⟨by simp [hcase], by omega⟩

/-- C6, Dedup within a run: in a run over a notebook whose notes all parse
to nonempty block lists and upload successfully on the first attempt, if
exactly two notes carry the fingerprint `h` (not yet in the done set),
then exactly one `upload_note` call is made for `h`, and the other note is
skipped as a duplicate (one duplicate-skip log line for `h`). -/
theorem dedup_single_upload (cfg : UploaderCfg) (hroot : cfg.importRoot = true)
    (stem : String) (notes : List SrcNote) (st : UploaderState) (h : String)
    (hnp : ∀ n ∈ notes, n.parseResult = some true ∧ n.outcome 0 = true)
    (hnotdone : h ∉ st.done)
    (htwo : (notes.filter fun n => decide (n.noteHash = h)).length = 2) :
    countUploads (uploadFile cfg stem notes st).1 h = 1 ∧
    countSkips (uploadFile cfg stem notes st).1 h = 1 := by
  obtain ⟨ihu, ihs⟩ := (runNotes_dedup cfg notes st hnp h).2 hnotdone
  simp only [uploadFile, hroot, if_true, List.singleton_append]
  rw [countUploads_cons_other _ _ _ (by cases cfg.modeDB <;> simp),
    countSkips_cons_ne _ _ _ (by cases cfg.modeDB <;> simp), ihu, ihs, htwo]
  exact ⟨by omega, by omega⟩

/-- C6 witness: two notes with the same fingerprint, one upload call. -/
theorem dedup_single_upload_witness :
    countUploads (uploadFile ⟨true, true, true⟩ "book"
        [⟨"t1", "h", some true, fun _ => true⟩,
         ⟨"t2", "h", some true, fun _ => true⟩] ⟨[], []⟩).1 "h" = 1 ∧
    countSkips (uploadFile ⟨true, true, true⟩ "book"
        [⟨"t1", "h", some true, fun _ => true⟩,
         ⟨"t2", "h", some true, fun _ => true⟩] ⟨[], []⟩).1 "h" = 1 :=
  dedup_single_upload ⟨true, true, true⟩ rfl "book"
    [⟨"t1", "h", some true, fun _ => true⟩,
     ⟨"t2", "h", some true, fun _ => true⟩] ⟨[], []⟩ "h"
    (by
      intro n hn
      rcases List.mem_cons.mp hn with rfl | hn
      · exact ⟨rfl, rfl⟩
      · rw [List.mem_singleton] at hn
        subst hn
        exact ⟨rfl, rfl⟩)
    (by simp)
    (by simp)

/-! ### Skip-failed policy (spec-modelled) -/

/-- Number of logged per-note failures in a trace. -/
def countErrors (tr : List Event) : Nat :=
  (tr.filter fun e =>
    match e with
    | Event.errorSkipFailed _ => true
    | _ => false).length

/-- Modelled from the spec: one note's processing in the refactored driver
(module `cli_upload`, exercised by the tests through `--skip-failed` but
not under `src/`): the upload is attempted under the configurable retry
policy; on terminal success the fingerprint is recorded (done set and
ledger); on terminal failure, with `skip_failed` enabled the failure is
logged and the run proceeds to the next note, writing no ledger entry,
while without it the failure propagates. -/
def processNoteSkip (skipFailed : Bool) (retry fuel : Nat) (note : SrcNote)
    (st : UploaderState) : List Event × UploaderState × Bool :=
  if note.noteHash ∈ st.done then
    ([Event.skipDupe note.noteHash], st, true)
  else
    match retryUpload note.outcome retry 1 fuel with
    | some (_, true) =>
      ([Event.uploadCall note.noteHash true, Event.ledgerAppend note.noteHash],
        { done := note.noteHash :: st.done,
          ledger := st.ledger ++ [note.noteHash] },
        true)
    | some (_, false) =>
      if skipFailed then
        ([Event.uploadCall note.noteHash false,
            Event.errorSkipFailed note.title], st, true)
      else
        ([Event.uploadCall note.noteHash false], st, false)
    | none => ([Event.uploadCall note.noteHash false], st, false)

/-- Modelled from the spec: the note loop of the refactored driver. -/
def runNotesSkip (skipFailed : Bool) (retry fuel : Nat) :
    List SrcNote → UploaderState → List Event × UploaderState × Bool
  | [], st => ([], st, true)
  | n :: ns, st =>
    let r := processNoteSkip skipFailed retry fuel n st
    if r.2.2 then
      let rest := runNotesSkip skipFailed retry fuel ns r.2.1
      (r.1 ++ rest.1, rest.2.1, rest.2.2)
    else
      (r.1, r.2.1, false)

/-- C2, Skip policy: with `skip_failed` enabled and a bounded retry count,
if every upload attempt of every note fails, the run logs one failure per
note and continues to the end without raising, and no ledger entry is
written for any of the failed notes (the state, done set and ledger file,
is unchanged). -/
theorem skip_failed_policy (retry fuel : Nat) (hr : 1 ≤ retry)
    (hfuel : retry ≤ fuel) (notes : List SrcNote) :
    ∀ st : UploaderState,
      (∀ n ∈ notes, ∀ i, n.outcome i = false) →
      (∀ n ∈ notes, n.noteHash ∉ st.done) →
      (runNotesSkip true retry fuel notes st).2.2 = true ∧
      (runNotesSkip true retry fuel notes st).2.1 = st ∧
      (∀ h, Event.ledgerAppend h ∉ (runNotesSkip true retry fuel notes st).1) ∧
      countErrors (runNotesSkip true retry fuel notes st).1 = notes.length := by
  induction notes with
  | nil =>
    intro st _ _
    exact ⟨rfl, rfl, by simp [runNotesSkip], rfl⟩
  | cons n ns ih =>
    intro st hfail hnd
    have hmem : n.noteHash ∉ st.done := hnd n (List.mem_cons_self n ns)
    have hret : retryUpload n.outcome retry 1 fuel = some (retry, false) :=
      retryUpload_all_fail n.outcome retry hr (hfail n (List.mem_cons_self n ns))
        fuel 1 (by omega) (by omega) (by omega)
    have heq : processNoteSkip true retry fuel n st
        = ([Event.uploadCall n.noteHash false,
            Event.errorSkipFailed n.title], st, true) := by
      rw [processNoteSkip, if_neg hmem, hret]
      rfl
    obtain ⟨ih1, ih2, ih3, ih4⟩ := ih st
      (fun m hm => hfail m (List.mem_cons_of_mem n hm))
      (fun m hm => hnd m (List.mem_cons_of_mem n hm))
    simp only [runNotesSkip, heq, if_true, List.cons_append, List.nil_append]
    refine ⟨ih1, ih2, ?_, ?_⟩
    · intro h hmem'
      rcases List.mem_cons.mp hmem' with hcon | hmem'
      · cases hcon
      · rcases List.mem_cons.mp hmem' with hcon | hmem'
        · cases hcon
        · exact ih3 h hmem'
    · rw [countErrors, List.filter_cons, List.filter_cons]
      simp only [countErrors] at ih4
      simp [ih4]

/-- C2 witness: two always-failing notes, skip-failed enabled. -/
theorem skip_failed_policy_witness :
    (runNotesSkip true 2 3
        [⟨"t1", "h1", some true, fun _ => false⟩,
         ⟨"t2", "h2", some true, fun _ => false⟩] ⟨[], []⟩).2.2 = true ∧
    (runNotesSkip true 2 3
        [⟨"t1", "h1", some true, fun _ => false⟩,
         ⟨"t2", "h2", some true, fun _ => false⟩] ⟨[], []⟩).2.1 = ⟨[], []⟩ ∧
    countErrors (runNotesSkip true 2 3
        [⟨"t1", "h1", some true, fun _ => false⟩,
         ⟨"t2", "h2", some true, fun _ => false⟩] ⟨[], []⟩).1 = 2 := by
  have hmain := skip_failed_policy 2 3 (by omega) (by omega)
    [⟨"t1", "h1", some true, fun _ => false⟩,
     ⟨"t2", "h2", some true, fun _ => false⟩] ⟨[], []⟩
    (by
      intro n hn i
      rcases List.mem_cons.mp hn with rfl | hn
      · rfl
      · rw [List.mem_singleton] at hn
        subst hn
        rfl)
    (by
      intro n hn
      rcases List.mem_cons.mp hn with rfl | hn
      · simp
      · rw [List.mem_singleton] at hn
        subst hn
        simp)
  exact ⟨hmain.1, hmain.2.1, hmain.2.2.2⟩

/-! ### Directory input scanning (`cli`, lines 148-154) -/

/-- A file system entry: a plain file or a directory with entries. -/
inductive FSEntry where
  | file (name : String)
  | dir (name : String) (children : List FSEntry)

/-- Whether an entry name matches the glob pattern `*.enex` (the name ends
with `.enex`; pathlib's `*` also matches names starting with a dot). -/
def endsWithDotEnex (name : String) : Bool :=
  decide (name.data.reverse.take 5 = ['x', 'e', 'n', 'e', '.'])

mutual
/-- Matches of `glob("**/*.enex")` below one entry of the scanned
directory, each match given as its list of path components: pathlib's `**`
recurses into every directory, and the final `*.enex` component matches
any entry, file or directory, whose name ends in `.enex`. -/
def globMatches (pre : List String) : FSEntry → List (List String)
  | FSEntry.file name =>
    if endsWithDotEnex name then [pre ++ [name]] else []
  | FSEntry.dir name children =>
    (if endsWithDotEnex name then [pre ++ [name]] else []) ++
      globList (pre ++ [name]) children

/-- Matches of `glob("**/*.enex")` below a list of entries, in directory
order. -/
def globList (pre : List String) : List FSEntry → List (List String)
  | [] => []
  | e :: es => globMatches pre e ++ globList pre es
end

mutual
/-- All entries below one entry, as (path components, entry name,
is-directory) triples. -/
def entryPaths (pre : List String) :
    FSEntry → List (List String × String × Bool)
  | FSEntry.file name => [(pre ++ [name], name, false)]
  | FSEntry.dir name children =>
    (pre ++ [name], name, true) :: entryPathsList (pre ++ [name]) children

/-- All entries below a list of entries. -/
def entryPathsList (pre : List String) :
    List FSEntry → List (List String × String × Bool)
  | [] => []
  | e :: es => entryPaths pre e ++ entryPathsList pre es
end

/-- Strict lexicographic comparison of character lists; Python's `<` on
one path component. -/
def charListLt : List Char → List Char → Bool
  | [], [] => false
  | [], _ :: _ => true
  | _ :: _, [] => false
  | a :: as, b :: bs => if a = b then charListLt as bs else decide (a < b)

/-- Strict comparison of one path component (Python string `<`). -/
def compLt (a b : String) : Bool :=
  charListLt a.data b.data

/-- The order in which Python sorts `Path` values: `PurePath.__lt__`
compares the tuple of path components (`parts`), tuples ordered
lexicographically and each component compared as a string. -/
def partsLe : List String → List String → Bool
  | [], _ => true
  | _ :: _, [] => false
  | x :: xs, y :: ys => if x = y then partsLe xs ys else compLt x y

theorem charListLt_irrefl : ∀ a : List Char, charListLt a a = false := by
  intro a
  induction a with
  | nil => rfl
  | cons x xs ih => simp [charListLt, ih]

theorem charListLt_trichotomy : ∀ a b : List Char,
    charListLt a b = true ∨ a = b ∨ charListLt b a = true := by
  intro a
  induction a with
  | nil =>
    intro b
    cases b with
    | nil => exact Or.inr (Or.inl rfl)
    | cons y ys => exact Or.inl rfl
  | cons x xs ih =>
    intro b
    cases b with
    | nil => exact Or.inr (Or.inr rfl)
    | cons y ys =>
      by_cases hxy : x = y
      · subst hxy
        rcases ih ys with h | h | h
        · exact Or.inl (by simp [charListLt, h])
        · exact Or.inr (Or.inl (by rw [h]))
        · exact Or.inr (Or.inr (by simp [charListLt, h]))
      · rcases lt_trichotomy x y with hlt | heq | hgt
        · exact Or.inl (by simp [charListLt, hxy, hlt])
        · exact absurd heq hxy
        · have hyx : ¬y = x := fun hcon => hxy hcon.symm
          exact Or.inr (Or.inr (by simp [charListLt, hyx, hgt]))

theorem charListLt_trans : ∀ a b c : List Char,
    charListLt a b = true → charListLt b c = true → charListLt a c = true := by
  intro a
  induction a with
  | nil =>
    intro b c hab hbc
    cases b with
    | nil => simp [charListLt] at hab
    | cons y ys =>
      cases c with
      | nil => simp [charListLt] at hbc
      | cons z zs => rfl
  | cons x xs ih =>
    intro b c hab hbc
    cases b with
    | nil => simp [charListLt] at hab
    | cons y ys =>
      cases c with
      | nil => simp [charListLt] at hbc
      | cons z zs =>
        by_cases hxy : x = y <;> by_cases hyz : y = z
        · subst hxy; subst hyz
          simp only [charListLt, if_pos rfl] at hab hbc ⊢
          exact ih ys zs hab hbc
        · subst hxy
          simp only [charListLt, if_pos rfl, if_neg hyz] at hbc ⊢
          exact hbc
        · subst hyz
          simp only [charListLt, if_neg hxy] at hab ⊢
          exact hab
        · simp only [charListLt, if_neg hxy, decide_eq_true_eq] at hab
          simp only [charListLt, if_neg hyz, decide_eq_true_eq] at hbc
          have hxz : x < z := lt_trans hab hbc
          simp [charListLt, ne_of_lt hxz, hxz]

theorem compLt_irrefl (a : String) : compLt a a = false :=
  charListLt_irrefl a.data

theorem compLt_trans (a b c : String) (hab : compLt a b = true)
    (hbc : compLt b c = true) : compLt a c = true :=
  charListLt_trans a.data b.data c.data hab hbc

theorem compLt_trichotomy (a b : String) :
    compLt a b = true ∨ a = b ∨ compLt b a = true := by
  rcases charListLt_trichotomy a.data b.data with h | h | h
  · exact Or.inl h
  · exact Or.inr (Or.inl (String.ext h))
  · exact Or.inr (Or.inr h)

theorem partsLe_total : ∀ u v : List String,
    partsLe u v = true ∨ partsLe v u = true := by
  intro u
  induction u with
  | nil => intro v; exact Or.inl rfl
  | cons x xs ih =>
    intro v
    cases v with
    | nil => exact Or.inr rfl
    | cons y ys =>
      by_cases hxy : x = y
      · subst hxy
        rcases ih ys with h | h
        · exact Or.inl (by simp [partsLe, h])
        · exact Or.inr (by simp [partsLe, h])
      · rcases compLt_trichotomy x y with h | h | h
        · exact Or.inl (by simp [partsLe, hxy, h])
        · exact absurd h hxy
        · have hyx : ¬y = x := fun hcon => hxy hcon.symm
          exact Or.inr (by simp [partsLe, hyx, h])

theorem partsLe_trans : ∀ u v w : List String,
    partsLe u v = true → partsLe v w = true → partsLe u w = true := by
  intro u
  induction u with
  | nil => intro v w _ _; rfl
  | cons x xs ih =>
    intro v w hab hbc
    cases v with
    | nil => simp [partsLe] at hab
    | cons y ys =>
      cases w with
      | nil => simp [partsLe] at hbc
      | cons z zs =>
        by_cases hxy : x = y <;> by_cases hyz : y = z
        · subst hxy; subst hyz
          simp only [partsLe, if_pos rfl] at hab hbc ⊢
          exact ih ys zs hab hbc
        · subst hxy
          simp only [partsLe, if_pos rfl, if_neg hyz] at hbc ⊢
          exact hbc
        · subst hyz
          simp only [partsLe, if_neg hxy] at hab ⊢
          exact hab
        · simp only [partsLe, if_neg hxy] at hab
          simp only [partsLe, if_neg hyz] at hbc
          have hxz : compLt x z = true := compLt_trans x y z hab hbc
          have hne : ¬x = z := by
            intro hcon
            subst hcon
            have hxx : compLt x x = true := compLt_trans x y x hab hbc
            rw [compLt_irrefl x] at hxx
            cases hxx
          simp [partsLe, hne, hxz]

/-- Insertion step of the sorting used to model Python's `sorted`. -/
def insertParts (p : List String) :
    List (List String) → List (List String)
  | [] => [p]
  | q :: qs => if partsLe p q then p :: q :: qs else q :: insertParts p qs

/-- Sorting by component-tuple path order, modelling `sorted(...)` over
`Path` values. -/
def sortParts : List (List String) → List (List String)
  | [] => []
  | p :: ps => insertParts p (sortParts ps)

theorem insertParts_perm (p : List String) : ∀ l : List (List String),
    (insertParts p l).Perm (p :: l) := by
  intro l
  induction l with
  | nil => exact List.Perm.refl _
  | cons q qs ih =>
    rw [insertParts]
    by_cases hpq : partsLe p q
    · rw [if_pos hpq]
    · rw [if_neg hpq]
      exact (ih.cons q).trans (List.Perm.swap p q qs)

theorem sortParts_perm : ∀ l : List (List String), (sortParts l).Perm l := by
  intro l
  induction l with
  | nil => exact List.Perm.refl _
  | cons p ps ih =>
    exact (insertParts_perm p (sortParts ps)).trans (ih.cons p)

theorem mem_sortParts (l : List (List String)) (p : List String) :
    p ∈ sortParts l ↔ p ∈ l :=
  (sortParts_perm l).mem_iff

theorem insertParts_sorted (p : List String) (l : List (List String))
    (hl : List.Pairwise (fun a b => partsLe a b = true) l) :
    List.Pairwise (fun a b => partsLe a b = true) (insertParts p l) := by
  induction l with
  | nil => simp [insertParts]
  | cons q qs ih =>
    rw [insertParts]
    rcases List.pairwise_cons.mp hl with ⟨hq, hqs⟩
    by_cases hpq : partsLe p q
    · rw [if_pos hpq]
      refine List.pairwise_cons.mpr ⟨?_, hl⟩
      intro b hb
      rcases List.mem_cons.mp hb with rfl | hb
      · exact hpq
      · exact partsLe_trans p q b hpq (hq b hb)
    · rw [if_neg hpq]
      have hqp : partsLe q p = true := by
        rcases partsLe_total p q with h | h
        · exact absurd h hpq
        · exact h
      refine List.pairwise_cons.mpr ⟨?_, ih hqs⟩
      intro b hb
      rcases (insertParts_perm p qs).mem_iff.mp hb with hb'
      rcases List.mem_cons.mp hb' with rfl | hb'
      · exact hqp
      · exact hq b hb'

theorem sortParts_sorted : ∀ l : List (List String),
    List.Pairwise (fun a b => partsLe a b = true) (sortParts l) := by
  intro l
  induction l with
  | nil => simp [sortParts]
  | cons p ps ih => exact insertParts_sorted p (sortParts ps) ih

/-- From `cli` (`cli.py` lines 148-154): a directory input is scanned with
`glob("**/*.enex")` and the matches are processed in sorted order —
Python sorts the `Path` values, and `PurePath.__lt__` orders them by
their component tuple; a file input is processed directly.  Paths are
represented by their component lists. -/
def processInput : FSEntry → List (List String)
  | FSEntry.file name => [[name]]
  | FSEntry.dir name children => sortParts (globList [name] children)

mutual
theorem mem_globMatches (p : List String) (pre : List String) (e : FSEntry) :
    p ∈ globMatches pre e ↔
      ∃ nm d, (p, nm, d) ∈ entryPaths pre e ∧ endsWithDotEnex nm = true := by
  cases e with
  | file name =>
    by_cases hsuf : endsWithDotEnex name = true
    · simp only [globMatches, if_pos hsuf, entryPaths, List.mem_singleton,
        Prod.mk.injEq]
      constructor
      · rintro rfl
        exact ⟨name, false, ⟨rfl, rfl, rfl⟩, hsuf⟩
      · rintro ⟨nm, d, ⟨hp, -, -⟩, -⟩
        exact hp
    · simp [globMatches, hsuf, entryPaths]
  | dir name children =>
    rw [globMatches, entryPaths]
    simp only [List.mem_append, List.mem_cons, mem_globList p _ children]
    constructor
    · rintro (hp | ⟨nm, d, hmem, hsuf⟩)
      · by_cases hsuf : endsWithDotEnex name = true
        · rw [if_pos hsuf, List.mem_singleton] at hp
          exact ⟨name, true, Or.inl (by rw [hp]), hsuf⟩
        · rw [if_neg hsuf] at hp
          cases hp
      · exact ⟨nm, d, Or.inr hmem, hsuf⟩
    · rintro ⟨nm, d, hmem | hmem, hsuf⟩
      · refine Or.inl ?_
        have hp : p = pre ++ [name] := congrArg Prod.fst hmem
        have hnm : nm = name := congrArg (fun t => t.2.1) hmem
        rw [if_pos (hnm ▸ hsuf), List.mem_singleton]
        exact hp
      · exact Or.inr ⟨nm, d, hmem, hsuf⟩

theorem mem_globList (p : List String) (pre : List String)
    (es : List FSEntry) :
    p ∈ globList pre es ↔
      ∃ nm d, (p, nm, d) ∈ entryPathsList pre es ∧
        endsWithDotEnex nm = true := by
  cases es with
  | nil => simp [globList, entryPathsList]
  | cons e es =>
    rw [globList, entryPathsList]
    simp only [List.mem_append, mem_globMatches p pre e, mem_globList p pre es]
    constructor
    · rintro (⟨nm, d, hmem, hsuf⟩ | ⟨nm, d, hmem, hsuf⟩)
      · exact ⟨nm, d, Or.inl hmem, hsuf⟩
      · exact ⟨nm, d, Or.inr hmem, hsuf⟩
    · rintro ⟨nm, d, hmem | hmem, hsuf⟩
      · exact Or.inl ⟨nm, d, hmem, hsuf⟩
      · exact Or.inr ⟨nm, d, hmem, hsuf⟩
end

example : processInput
    (FSEntry.dir "root" [FSEntry.dir "sub.enex" [], FSEntry.file "b.enex"])
    = [["root", "b.enex"], ["root", "sub.enex"]] := by decide

example : processInput (FSEntry.dir "root"
      [FSEntry.dir "a-b" [FSEntry.file "x.enex"],
       FSEntry.dir "a" [FSEntry.file "y.enex"]])
    = [["root", "a", "y.enex"], ["root", "a-b", "x.enex"]] := by decide

/-- C9 counterexample: pathlib's `glob("**/*.enex")` also matches
directories whose name ends in `.enex`, so the run does not process
exactly the files with that extension: for an input directory containing a
subdirectory `sub.enex` and a file `b.enex`, the processed list contains
the path `root/sub.enex`, which is a directory entry and not a file. -/
theorem input_order_counterexample :
    processInput (FSEntry.dir "root"
        [FSEntry.dir "sub.enex" [], FSEntry.file "b.enex"])
      = [["root", "b.enex"], ["root", "sub.enex"]] ∧
    (["root", "sub.enex"], "sub.enex", true) ∈ entryPathsList ["root"]
        [FSEntry.dir "sub.enex" [], FSEntry.file "b.enex"] ∧
    (¬∃ nm, (["root", "sub.enex"], nm, false) ∈ entryPathsList ["root"]
        [FSEntry.dir "sub.enex" [], FSEntry.file "b.enex"]) := by
  refine ⟨by decide, by decide, ?_⟩
  rintro ⟨nm, hmem⟩
  have hlist : entryPathsList ["root"]
      [FSEntry.dir "sub.enex" [], FSEntry.file "b.enex"]
      = [(["root", "sub.enex"], "sub.enex", true),
         (["root", "b.enex"], "b.enex", false)] := by decide
  rw [hlist] at hmem
  rcases List.mem_cons.mp hmem with hcon | hmem
  · have hb : false = true := congrArg (fun t => t.2.2) hcon
    cases hb
  · rw [List.mem_singleton] at hmem
    have hs : ["root", "sub.enex"] = ["root", "b.enex"] :=
      congrArg Prod.fst hmem
    exact absurd hs (by decide)

/-- C9 amended: a file input is processed directly; a directory input is
processed as exactly the entries under it, recursively, whose name ends
in `.enex` — files and also directories, since the glob pattern matches
either — and the processed list is sorted in the lexicographic order on
path component tuples that Python uses to sort `Path` values. -/
theorem input_order (name fname : String) (children : List FSEntry) :
    processInput (FSEntry.file fname) = [[fname]] ∧
    List.Pairwise (fun a b => partsLe a b = true)
      (processInput (FSEntry.dir name children)) ∧
    ∀ p, p ∈ processInput (FSEntry.dir name children) ↔
      ∃ nm d, (p, nm, d) ∈ entryPathsList [name] children ∧
        endsWithDotEnex nm = true := by
  refine ⟨rfl, ?_, ?_⟩
  · exact sortParts_sorted (globList [name] children)
  · intro p
    rw [processInput, mem_sortParts, mem_globList]

end Enex2Notion
